import Mathlib

/-!
Verification of the FRI prover core (commit and decommit phases) against its
natural-language specification.

The development shallowly embeds the Rust sources:
* `field_provider_v1.rs` — the BLS12-381 scalar field, modelled as `ZMod fieldPrime`;
* `polynome.rs` — dense coefficient vectors over the field, modelled as `List F`;
* `fri_code_layer.rs` — evaluation domains, Merkle commitments, the commit
  ladder and the query (decommitment) phase;
* `channel.rs` — the prover transcript, with its randomness source modelled as
  explicit oracle streams (the Rust code draws from a thread-local PRNG).

Machine-integer behaviour is made explicit: `usize` subtraction in `degree`
is modelled with a two's-complement wrap modulo 2^64 (the release-build
behaviour of the unchecked `len() - 1`), and the `u64` challenge draws are
reduced modulo 2^64 before being cast into the field.

The Merkle tree and SHA-256 live in external crates (`rs_merkle`, `sha2`), so
they are modelled from the specification: leaves are SHA-256 digests of the
32-byte little-endian encoding of a field element, internal nodes are SHA-256
of the concatenation of their children, an unpaired node is promoted to the
next level unchanged, and an authentication path is the ordered list of
sibling digests from the leaf level up to the root.
-/

/-- The BLS12-381 scalar-field modulus, from `field_provider_v1.rs`. -/
def fieldPrime : Nat :=
  52435875175126190479447740508185965837690552500527637822603658699938581184513

/-- A field element (`FieldElement` in `field_provider_v1.rs`). -/
abbrev F := ZMod fieldPrime

/-- The field's multiplicative generator (`PrimeFieldGenerator = "7"`). -/
def fieldGen : F := 7

/-- `usize::MAX + 1`: the modulus of 64-bit unsigned arithmetic. -/
def USIZE : Nat := 18446744073709551616

/-! ## SHA-256, modelled from the spec

Modelled from the spec: the `sha2` crate is not part of the repository
sources; §6 fixes the hash to SHA-256 with 32-byte output, leaf hash over the
32-byte canonical field-element encoding.  Bytes are `Nat`s below 256, words
are `Nat`s reduced modulo 2^32. -/

/-- 32-bit right rotation. -/
def rotr32 (n x : Nat) : Nat := ((x >>> n) ||| (x <<< (32 - n))) % 4294967296

/-- SHA-256 small sigma 0. -/
def ssig0 (x : Nat) : Nat := (rotr32 7 x) ^^^ (rotr32 18 x) ^^^ (x >>> 3)

/-- SHA-256 small sigma 1. -/
def ssig1 (x : Nat) : Nat := (rotr32 17 x) ^^^ (rotr32 19 x) ^^^ (x >>> 10)

/-- SHA-256 big sigma 0. -/
def bsig0 (x : Nat) : Nat := (rotr32 2 x) ^^^ (rotr32 13 x) ^^^ (rotr32 22 x)

/-- SHA-256 big sigma 1. -/
def bsig1 (x : Nat) : Nat := (rotr32 6 x) ^^^ (rotr32 11 x) ^^^ (rotr32 25 x)

/-- SHA-256 choice function. -/
def shaCh (e f g : Nat) : Nat := (e &&& f) ^^^ ((e ^^^ 4294967295) &&& g)

/-- SHA-256 majority function. -/
def shaMaj (a b c : Nat) : Nat := (a &&& b) ^^^ (a &&& c) ^^^ (b &&& c)

/-- The 64 SHA-256 round constants. -/
def shaK : List Nat :=
  [1116352408, 1899447441, 3049323471, 3921009573, 961987163, 1508970993,
   2453635748, 2870763221, 3624381080, 310598401, 607225278, 1426881987,
   1925078388, 2162078206, 2614888103, 3248222580, 3835390401, 4022224774,
   264347078, 604807628, 770255983, 1249150122, 1555081692, 1996064986,
   2554220882, 2821834349, 2952996808, 3210313671, 3336571891, 3584528711,
   113926993, 338241895, 666307205, 773529912, 1294757372, 1396182291,
   1695183700, 1986661051, 2177026350, 2456956037, 2730485921, 2820302411,
   3259730800, 3345764771, 3516065817, 3600352804, 4094571909, 275423344,
   430227734, 506948616, 659060556, 883997877, 958139571, 1322822218,
   1537002063, 1747873779, 1955562222, 2024104815, 2227730452, 2361852424,
   2428436474, 2756734187, 3204031479, 3329325298]

/-- The eight SHA-256 initial hash words. -/
def shaIV : List Nat :=
  [1779033703, 3144134277, 1013904242, 2773480762, 1359893119, 2600822924,
   528734635, 1541459225]

/-- Big-endian 8-byte encoding of a natural number. -/
def be64 (n : Nat) : List Nat :=
  (List.range 8).map (fun i => n / 256 ^ (7 - i) % 256)

/-- SHA-256 message padding: append `0x80`, zeros, and the 64-bit big-endian
bit length, reaching a multiple of 64 bytes. -/
def shaPad (msg : List Nat) : List Nat :=
  msg ++ [128] ++ List.replicate ((64 - (msg.length + 9) % 64) % 64) 0
      ++ be64 (8 * msg.length)

/-- Group a byte list into big-endian 32-bit words. -/
def toWords : List Nat → List Nat
  | b0 :: b1 :: b2 :: b3 :: rest =>
      (b0 * 16777216 + b1 * 65536 + b2 * 256 + b3) :: toWords rest
  | _ => []

/-- Extend a 16-word block schedule by `k` further words. -/
def extendW : Nat → List Nat → List Nat
  | 0, w => w
  | k + 1, w =>
      extendW k (w ++ [(ssig1 (w.getD (w.length - 2) 0) + w.getD (w.length - 7) 0
        + ssig0 (w.getD (w.length - 15) 0) + w.getD (w.length - 16) 0) % 4294967296])

/-- The eight-word SHA-256 working state. -/
structure Sha8 where
  a : Nat
  b : Nat
  c : Nat
  d : Nat
  e : Nat
  f : Nat
  g : Nat
  h : Nat

/-- One SHA-256 round, consuming a schedule word paired with a round constant. -/
def shaRound (st : Sha8) (wk : Nat × Nat) : Sha8 :=
  let t1 := (st.h + bsig1 st.e + shaCh st.e st.f st.g + wk.2 + wk.1) % 4294967296
  let t2 := (bsig0 st.a + shaMaj st.a st.b st.c) % 4294967296
  ⟨(t1 + t2) % 4294967296, st.a, st.b, st.c, (st.d + t1) % 4294967296,
    st.e, st.f, st.g⟩

/-- Compress one 64-byte block into the running eight-word state. -/
def shaCompress (hs : List Nat) (block : List Nat) : List Nat :=
  let w := extendW 48 (toWords block)
  let st0 : Sha8 := ⟨hs.getD 0 0, hs.getD 1 0, hs.getD 2 0, hs.getD 3 0,
    hs.getD 4 0, hs.getD 5 0, hs.getD 6 0, hs.getD 7 0⟩
  let st := (w.zip shaK).foldl shaRound st0
  [(hs.getD 0 0 + st.a) % 4294967296, (hs.getD 1 0 + st.b) % 4294967296,
   (hs.getD 2 0 + st.c) % 4294967296, (hs.getD 3 0 + st.d) % 4294967296,
   (hs.getD 4 0 + st.e) % 4294967296, (hs.getD 5 0 + st.f) % 4294967296,
   (hs.getD 6 0 + st.g) % 4294967296, (hs.getD 7 0 + st.h) % 4294967296]

/-- Split a byte list into 64-byte chunks (the fuel is an upper bound on the
number of chunks). -/
def chunks64 : Nat → List Nat → List (List Nat)
  | 0, _ => []
  | _, [] => []
  | fuel + 1, l => l.take 64 :: chunks64 fuel (l.drop 64)

/-- SHA-256 digest of a byte list, as a list of 32 bytes. -/
def sha256 (msg : List Nat) : List Nat :=
  let padded := shaPad msg
  let final := (chunks64 padded.length padded).foldl shaCompress shaIV
  final.foldr (fun w acc =>
    w / 16777216 % 256 :: w / 65536 % 256 :: w / 256 % 256 :: w % 256 :: acc) []

/-! ## Polynomials (`polynome.rs`) -/

/-- `remove_zeroes`: strip trailing zero coefficients (the reversed list drops
its leading zeros and is reversed back). -/
def remove_zeroes (coeffs : List F) : List F :=
  ((coeffs.reverse.dropWhile (fun x => decide (x = 0)))).reverse

/-- `Vec::resize(n, 0)`: truncate or zero-pad to exact length `n`, as used by
`pad_with_zero_coefficients_to_length`. -/
def resizeZero (l : List F) (n : Nat) : List F :=
  l.take n ++ List.replicate (n - l.length) 0

/-- `pad_with_zero_coefficients`: zero-pad the shorter of the two coefficient
vectors so both have the longer one's length. -/
def pad_with_zero_coefficients (pa pb : List F) : List F × List F :=
  if pa.length > pb.length then (pa, resizeZero pb pa.length)
  else (resizeZero pa pb.length, pb)

/-- `degree`: `self.coefficients.len() - 1` on `usize`; the subtraction is
unchecked, so on the empty vector it wraps modulo 2^64 (release-build
semantics of `0 - 1`). -/
def degree (l : List F) : Nat := (l.length + (USIZE - 1)) % USIZE

/-- `evaluate`: Horner-style accumulation with a running power of `x`. -/
def evaluate (l : List F) (x : F) : F :=
  (l.foldl (fun acc c => (acc.1 + acc.2 * c, acc.2 * x)) ((0 : F), (1 : F))).1

/-- `evaluate_sliding`: map `evaluate` over an input sequence. -/
def evaluate_sliding (l : List F) (input : List F) : List F :=
  input.map (fun x => evaluate l x)

/-- `Iterator::step_by(2)`: every other element, starting with the first. -/
def stepBy2 : List F → List F
  | [] => []
  | [a] => [a]
  | a :: _ :: rest => a :: stepBy2 rest

/-- The `fold_with_beta` accumulation loop: iterate over the even-part
coefficients, adding the odd-part coefficient at the same index when present. -/
def combineCoeffs : List F → List F → List F
  | [], _ => []
  | e :: es, [] => e :: combineCoeffs es []
  | e :: es, o :: os => (e + o) :: combineCoeffs es os

/-- `fold_with_beta`: split into even- and odd-indexed coefficients, multiply
the odd ones by β, renormalize both parts, pad them to a common length, add
them pointwise, and renormalize the result. -/
def fold_with_beta (coeffs : List F) (beta : F) : List F :=
  let even_coefs := stepBy2 coeffs
  let odd_coefs_betarized := (stepBy2 (coeffs.drop 1)).map (fun x => x * beta)
  let p := pad_with_zero_coefficients
    (remove_zeroes even_coefs) (remove_zeroes odd_coefs_betarized)
  remove_zeroes (combineCoeffs p.1 p.2)

/-! ## Evaluation domains and Merkle commitments (`fri_code_layer.rs`) -/

/-- `generate_enlarged_evaluation_domain`: with `g` the multiplicative
generator, the coset offset is `g^((2^30 * 3) % domain_size)` (computed in
64-bit unsigned arithmetic; `2^30 * 3` fits well below `2^64`), the coset is
its powers, and the domain is the coset acted on by `g`. -/
def generate_enlarged_evaluation_domain (domain_size : Nat) : List F :=
  let g := fieldGen
  let coset_offset := g ^ ((2 ^ 30 * 3) % domain_size)
  let coset := (List.range domain_size).map (fun i => coset_offset ^ i)
  coset.map (fun x => g * x)

/-- `build_next_domain`: square each element and keep the first half. -/
def build_next_domain (domain : List F) : List F :=
  let stop_index := domain.length / 2
  (domain.map (fun x => x ^ 2)).take stop_index

/-- A 32-byte digest, as a list of byte values. -/
abbrev Digest := List Nat

/-- The 32-byte little-endian canonical encoding of a field element
(`to_repr` with `PrimeFieldReprEndianness = "little"`). -/
def encodeLE (x : F) : List Nat :=
  (List.range 32).map (fun i => x.val / 256 ^ i % 256)

/-- Leaf hash: SHA-256 of the canonical 32-byte encoding. -/
def leafHash (x : F) : Digest := sha256 (encodeLE x)

/-- `build_merkle_tree`: the committed tree is determined by its list of leaf
digests, one SHA-256 leaf hash per committed field element. -/
def build_merkle_tree (values : List F) : List Digest :=
  values.map leafHash

/-- Modelled from the spec: one level up in the `rs_merkle` tree — adjacent
digests are hashed pairwise (SHA-256 of the concatenation) and an unpaired
last digest is promoted unchanged. -/
def nextLevel : List Digest → List Digest
  | [] => []
  | [x] => [x]
  | a :: b :: rest => sha256 (a ++ b) :: nextLevel rest

/-- Root helper with explicit fuel (the leaf count bounds the level count). -/
def merkleRootAux : Nat → List Digest → Option Digest
  | _, [] => none
  | _, [x] => some x
  | 0, _ :: _ :: _ => none
  | fuel + 1, a :: b :: rest => merkleRootAux fuel (nextLevel (a :: b :: rest))

/-- Modelled from the spec: the Merkle root — fold the levels up to a single
digest; the zero-leaf tree has no root. -/
def merkleRoot (leaves : List Digest) : Option Digest :=
  merkleRootAux leaves.length leaves

/-- One lowercase-hex character code for a value below 16. -/
def hexChar (n : Nat) : Nat := if n < 10 then 48 + n else 87 + n

/-- Lowercase hex rendering of a digest, as a list of character codes. -/
def digestHex (d : Digest) : List Nat :=
  d.foldr (fun b acc => hexChar (b / 16) :: hexChar (b % 16) :: acc) []

/-- `root_hex`: the root digest rendered as lowercase hex, when present. -/
def rootHex (leaves : List Digest) : Option (List Nat) :=
  (merkleRoot leaves).map digestHex

/-- The sibling digest of node `i` at one level: its partner `i ^^^ 1`, or
nothing when `i` is an unpaired (promoted) node. -/
def siblingAt (l : List Digest) (i : Nat) : List Digest :=
  if h : i ^^^ 1 < l.length then [l.get ⟨i ^^^ 1, h⟩] else []

/-- Proof-hash helper with explicit fuel (the leaf count bounds the level
count). -/
def proofHashesAux : Nat → List Digest → Nat → List Digest
  | 0, _, _ => []
  | fuel + 1, l, i =>
      if l.length ≤ 1 then []
      else siblingAt l i ++ proofHashesAux fuel (nextLevel l) (i / 2)

/-- Modelled from the spec: `proof(&[i]).proof_hashes()` — the ordered list of
sibling digests from the leaf level up to the root (§3); the committed leaf's
own hash is not part of the proof, it is supplied separately at verification. -/
def proofHashes (leaves : List Digest) (i : Nat) : List Digest :=
  proofHashesAux leaves.length leaves i

/-! ## The channel (`channel.rs`)

The Rust channel draws its challenges and query indices from a thread-local
PRNG; the draws are modelled as oracle streams `betas`/`indices` consumed at
positions `bpos`/`ipos`. -/

/-- The prover transcript plus its randomness source. -/
structure Channel where
  committed : F → Option (Option (List Nat))
  betas : Nat → Nat
  indices : Nat → Nat
  bpos : Nat
  ipos : Nat

/-- `Channel::get_challenge`: a fresh `u64` draw reduced into the field. -/
def Channel.get_challenge (c : Channel) : F × Channel :=
  (((c.betas c.bpos % USIZE : Nat) : F), { c with bpos := c.bpos + 1 })

/-- `Channel::get_index`: a fresh `usize` draw. -/
def Channel.get_index (c : Channel) : Nat × Channel :=
  (c.indices c.ipos % USIZE, { c with ipos := c.ipos + 1 })

/-- `Channel::add_committed_data`: insert `challenge → root` into the
transcript mapping, silently overwriting an existing record. -/
def Channel.add_committed_data (c : Channel) (beta_challenge : F)
    (merkel_root : Option (List Nat)) : Channel :=
  { c with committed := fun x =>
      if x = beta_challenge then some merkel_root else c.committed x }

/-- `Channel::get_merkle_root`: look the challenge up and flatten the nested
option (`get().cloned().flatten()`). -/
def Channel.get_merkle_root (c : Channel) (beta_challenge : F) :
    Option (List Nat) :=
  (c.committed beta_challenge).join

/-! ## FRI layers and the commit / decommit phases (`fri_code_layer.rs`) -/

/-- `FriCodeLayer`: evaluations over a domain plus the committed Merkle tree
(kept as its list of leaf digests). -/
structure FriCodeLayer where
  evaluation : List F
  domain : List F
  merkle_tree : List Digest

instance : Inhabited FriCodeLayer := ⟨⟨[], [], []⟩⟩

/-- `evaluate_on_enlarged_domain`: evaluate the polynomial on every point. -/
def evaluate_on_enlarged_domain (poly : List F) (dom : List F) : List F :=
  evaluate_sliding poly dom

/-- `FriCodeLayer::new`: evaluate on the domain and commit. -/
def FriCodeLayer.new (poly : List F) (dom : List F) : FriCodeLayer :=
  let eval := evaluate_on_enlarged_domain poly dom
  ⟨eval, dom, build_merkle_tree eval⟩

/-- `FriCodeLayer::get_merkle_root`. -/
def FriCodeLayer.get_merkle_root (L : FriCodeLayer) : Option (List Nat) :=
  rootHex L.merkle_tree

/-- The β drawn at stream position `j`: a `u64` value cast into the field. -/
def betaOf (bs : Nat → Nat) (j : Nat) : F := ((bs j % USIZE : Nat) : F)

/-- The chain of folded polynomials produced by successive challenges drawn
from stream `bs` starting at position `pos`. -/
def polyChain (bs : Nat → Nat) (pos : Nat) (p : List F) : Nat → List F
  | 0 => p
  | k + 1 => fold_with_beta (polyChain bs pos p k) (betaOf bs (pos + k))

/-- The `while current_poly.degree() > 0` loop of `fri_commit_phase`, with
explicit fuel: `none` models a run that exceeds the fuel (the Rust loop has no
bound of its own and can diverge). -/
def commitLoop : Nat → List F → List F → List FriCodeLayer → Channel →
    Option (List F × List FriCodeLayer × Channel)
  | 0, poly, _, acc, ch =>
      if degree poly > 0 then none else some (poly, acc, ch)
  | fuel + 1, poly, dom, acc, ch =>
      if degree poly > 0 then
        let bc := ch.get_challenge
        let next_poly := fold_with_beta poly bc.1
        let next_domain := build_next_domain dom
        let layer := FriCodeLayer.new next_poly next_domain
        let ch2 := bc.2.add_committed_data bc.1 layer.get_merkle_root
        commitLoop fuel next_poly next_domain (acc ++ [layer]) ch2
      else some (poly, acc, ch)

/-- `fri_commit_phase`: build the initial domain and layer, record its root
under the field-zero key, then fold and recommit until the polynomial is
constant. -/
def fri_commit_phase (initial_poly : List F) (domain_size : Nat)
    (ch : Channel) (fuel : Nat) :
    Option (List F × List FriCodeLayer × Channel) :=
  let initial_domain := generate_enlarged_evaluation_domain domain_size
  let layer0 := FriCodeLayer.new initial_poly initial_domain
  let ch1 := ch.add_committed_data 0 layer0.get_merkle_root
  commitLoop fuel initial_poly initial_domain [layer0] ch1

/-- `FriDecommitment`: four parallel per-layer sequences. -/
structure FriDecommitment where
  layers_evaluations : List F
  layers_auth_paths : List (List Digest)
  layers_evaluations_sym : List F
  layers_auth_paths_sym : List (List Digest)

instance : Inhabited FriDecommitment := ⟨⟨[], [], [], []⟩⟩

/-- The per-query bundle built by the layer walk in `fri_decommitment_phase`:
the loop pushes onto four vectors, one entry per layer, which is the same as
four maps over the layer list. -/
def mkBundle (layers : List FriCodeLayer) (i : Nat) : FriDecommitment :=
  { layers_evaluations := layers.map (fun L =>
      L.evaluation.getD (i % L.domain.length) 0)
    layers_auth_paths := layers.map (fun L =>
      proofHashes L.merkle_tree (i % L.domain.length))
    layers_evaluations_sym := layers.map (fun L =>
      L.evaluation.getD ((i + L.domain.length / 2) % L.domain.length) 0)
    layers_auth_paths_sym := layers.map (fun L =>
      proofHashes L.merkle_tree ((i + L.domain.length / 2) % L.domain.length)) }

/-- `fri_decommitment_phase`: when the layer list is non-empty, draw
`fri_number_of_queries` indices from the channel (an `i32` count: a negative
count draws nothing), reduce each modulo the domain size, and build one
decommitment bundle per index; otherwise return empty outputs. -/
def fri_decommitment_phase (fri_number_of_queries : Int) (domain_size : Nat)
    (fri_layers : List FriCodeLayer) (i_channel : Channel) :
    (List FriDecommitment × List Nat) × Channel :=
  if fri_layers.isEmpty then (([], []), i_channel)
  else
    let q := fri_number_of_queries.toNat
    let coef_index_queries := (List.range q).map
      (fun j => (i_channel.indices (i_channel.ipos + j) % USIZE) % domain_size)
    let query_list := coef_index_queries.map (mkBundle fri_layers)
    ((query_list, coef_index_queries),
      { i_channel with ipos := i_channel.ipos + q })

/-! ## Coefficient-vector lemmas

All structural facts about `fold_with_beta` go through the view of a
coefficient vector as the function `fun i => l.getD i 0`: trimming, padding
and the even/odd split are all transparent to that view. -/

theorem getD_eq_zero_of_le {l : List F} {i : Nat} (h : l.length ≤ i) :
    l.getD i 0 = 0 :=
  l.getD_eq_default 0 h

theorem lt_length_of_getD_ne_zero {l : List F} {i : Nat}
    (h : l.getD i 0 ≠ 0) : i < l.length := by
  by_contra hc
  exact h (getD_eq_zero_of_le (Nat.le_of_not_lt hc))

theorem getD_append_replicate_zero (t : List F) (k i : Nat) :
    (t ++ List.replicate k (0 : F)).getD i 0 = t.getD i 0 := by
  induction t generalizing i with
  | nil =>
    simp only [List.nil_append, List.getD_nil]
    induction k generalizing i with
    | zero => simp [List.getD]
    | succ k ih =>
      cases i with
      | zero => rfl
      | succ i => simp [List.replicate_succ]
  | cons a t ih =>
    cases i with
    | zero => rfl
    | succ i => simpa using ih i

theorem remove_zeroes_append_replicate (l : List F) :
    ∃ k, l = remove_zeroes l ++ List.replicate k (0 : F) := by
  refine ⟨(l.reverse.takeWhile (fun x => decide (x = 0))).length, ?_⟩
  have hsplit := List.takeWhile_append_dropWhile
    (p := fun x => decide ((x : F) = 0)) (l := l.reverse)
  have hrev : (l.reverse.takeWhile (fun x => decide (x = 0))).reverse =
      List.replicate (l.reverse.takeWhile (fun x => decide (x = 0))).length
        (0 : F) := by
    have hrep : l.reverse.takeWhile (fun x => decide (x = 0)) =
        List.replicate (l.reverse.takeWhile (fun x => decide (x = 0))).length
          (0 : F) := by
      apply List.eq_replicate_of_mem
      intro b hb
      have hpb := List.mem_takeWhile_imp hb
      exact of_decide_eq_true hpb
    conv_lhs => rw [hrep]
    simp
  calc l = l.reverse.reverse := (List.reverse_reverse l).symm
    _ = (l.reverse.takeWhile (fun x => decide (x = 0)) ++
          l.reverse.dropWhile (fun x => decide (x = 0))).reverse := by
          rw [hsplit]
    _ = remove_zeroes l ++ (l.reverse.takeWhile (fun x => decide (x = 0))).reverse := by
          rw [List.reverse_append]; rfl
    _ = _ := by rw [hrev]

theorem getD_remove_zeroes (l : List F) (i : Nat) :
    (remove_zeroes l).getD i 0 = l.getD i 0 := by
  obtain ⟨k, hk⟩ := remove_zeroes_append_replicate l
  conv_rhs => rw [hk]
  rw [getD_append_replicate_zero]

theorem length_remove_zeroes_le (l : List F) :
    (remove_zeroes l).length ≤ l.length := by
  obtain ⟨k, hk⟩ := remove_zeroes_append_replicate l
  conv_rhs => rw [hk]
  simp

theorem length_resizeZero (l : List F) (n : Nat) :
    (resizeZero l n).length = n := by
  simp only [resizeZero, List.length_append, List.length_take,
    List.length_replicate]
  omega

theorem getD_resizeZero {l : List F} {n : Nat} (h : l.length ≤ n) (i : Nat) :
    (resizeZero l n).getD i 0 = l.getD i 0 := by
  rw [resizeZero, List.take_of_length_le h, getD_append_replicate_zero]

theorem length_combineCoeffs (e o : List F) :
    (combineCoeffs e o).length = e.length := by
  induction e generalizing o with
  | nil => cases o <;> rfl
  | cons a es ih => cases o <;> simp [combineCoeffs, ih]

theorem getD_combineCoeffs {e o : List F} (h : o.length ≤ e.length) (i : Nat) :
    (combineCoeffs e o).getD i 0 = e.getD i 0 + o.getD i 0 := by
  induction e generalizing o i with
  | nil =>
    have : o = [] := List.eq_nil_of_length_eq_zero (Nat.le_zero.mp h)
    subst this
    simp [combineCoeffs]
  | cons a es ih =>
    cases o with
    | nil =>
      cases i with
      | zero => simp [combineCoeffs]
      | succ i =>
        have := ih (o := []) (Nat.zero_le _) i
        simpa [combineCoeffs] using this
    | cons b os =>
      cases i with
      | zero => simp [combineCoeffs]
      | succ i =>
        have := ih (o := os) (Nat.succ_le_succ_iff.mp h) i
        simpa [combineCoeffs] using this

theorem getD_stepBy2 : ∀ (l : List F) (i : Nat),
    (stepBy2 l).getD i 0 = l.getD (2 * i) 0
  | [], i => by simp [stepBy2]
  | [a], 0 => rfl
  | [a], i + 1 => by
    have h2 : 2 * (i + 1) = 2 * i + 1 + 1 := by ring
    simp [stepBy2, h2]
  | a :: b :: rest, 0 => rfl
  | a :: b :: rest, i + 1 => by
    have h2 : 2 * (i + 1) = 2 * i + 1 + 1 := by ring
    have ih := getD_stepBy2 rest i
    rw [h2]
    simp only [stepBy2, List.getD_cons_succ]
    exact ih

theorem length_stepBy2 : ∀ l : List F,
    (stepBy2 l).length = (l.length + 1) / 2
  | [] => rfl
  | [a] => by norm_num [stepBy2]
  | a :: b :: rest => by
    have ih := length_stepBy2 rest
    simp only [stepBy2, List.length_cons, ih]
    omega

theorem getD_map_mul (l : List F) (β : F) (i : Nat) :
    ((l.map (fun x => x * β)).getD i 0) = l.getD i 0 * β := by
  induction l generalizing i with
  | nil => simp
  | cons a t ih =>
    cases i with
    | zero => rfl
    | succ i => simpa using ih i

theorem getD_drop_one (l : List F) (i : Nat) :
    (l.drop 1).getD i 0 = l.getD (i + 1) 0 := by
  cases l <;> rfl

theorem pad_lengths (pa pb : List F) :
    (pad_with_zero_coefficients pa pb).1.length = max pa.length pb.length ∧
    (pad_with_zero_coefficients pa pb).2.length = max pa.length pb.length := by
  by_cases h : pa.length > pb.length <;>
    simp [pad_with_zero_coefficients, h, length_resizeZero] <;> omega

theorem pad_getD (pa pb : List F) (i : Nat) :
    (pad_with_zero_coefficients pa pb).1.getD i 0 = pa.getD i 0 ∧
    (pad_with_zero_coefficients pa pb).2.getD i 0 = pb.getD i 0 := by
  unfold pad_with_zero_coefficients
  by_cases h : pa.length > pb.length
  · rw [if_pos h]
    exact ⟨rfl, getD_resizeZero (Nat.le_of_lt h) i⟩
  · rw [if_neg h]
    exact ⟨getD_resizeZero (Nat.le_of_not_lt h) i, rfl⟩

/-- Master view of the fold: the `i`-th output coefficient is
`a_{2i} + a_{2i+1} * β`, for every index. -/
theorem getD_fold_with_beta (l : List F) (β : F) (i : Nat) :
    (fold_with_beta l β).getD i 0 = l.getD (2 * i) 0 + l.getD (2 * i + 1) 0 * β := by
  have hlen := pad_lengths (remove_zeroes (stepBy2 l))
    (remove_zeroes ((stepBy2 (l.drop 1)).map (fun x => x * β)))
  have hget := pad_getD (remove_zeroes (stepBy2 l))
    (remove_zeroes ((stepBy2 (l.drop 1)).map (fun x => x * β))) i
  simp only [fold_with_beta, getD_remove_zeroes]
  rw [getD_combineCoeffs (by rw [hlen.1, hlen.2]), hget.1, hget.2,
    getD_remove_zeroes, getD_remove_zeroes, getD_stepBy2, getD_map_mul,
    getD_stepBy2, getD_drop_one]

theorem length_fold_with_beta_le (l : List F) (β : F) :
    (fold_with_beta l β).length ≤ (l.length + 1) / 2 := by
  have hlen := pad_lengths (remove_zeroes (stepBy2 l))
    (remove_zeroes ((stepBy2 (l.drop 1)).map (fun x => x * β)))
  have h1 : (remove_zeroes (stepBy2 l)).length ≤ (l.length + 1) / 2 := by
    have := length_remove_zeroes_le (stepBy2 l)
    rw [length_stepBy2] at this
    exact this
  have h2 : (remove_zeroes ((stepBy2 (l.drop 1)).map (fun x => x * β))).length ≤
      (l.length + 1) / 2 := by
    have hle := length_remove_zeroes_le ((stepBy2 (l.drop 1)).map (fun x => x * β))
    rw [List.length_map, length_stepBy2, List.length_drop] at hle
    omega
  calc (fold_with_beta l β).length
      ≤ (combineCoeffs (pad_with_zero_coefficients _ _).1
          (pad_with_zero_coefficients _ _).2).length :=
        length_remove_zeroes_le _
    _ = max (remove_zeroes (stepBy2 l)).length
          (remove_zeroes ((stepBy2 (l.drop 1)).map (fun x => x * β))).length := by
        rw [length_combineCoeffs, hlen.1]
    _ ≤ (l.length + 1) / 2 := by omega

theorem length_dropWhile_le_gen (p : F → Bool) (l : List F) :
    (l.dropWhile p).length ≤ l.length := by
  induction l with
  | nil => simp
  | cons a t ih =>
    rw [List.dropWhile_cons]
    by_cases h : p a = true
    · simp only [h, if_true]
      exact Nat.le_succ_of_le ih
    · simp [h]

theorem getD_append_singleton (xs : List F) (x : F) :
    (xs ++ [x]).getD xs.length 0 = x := by
  induction xs with
  | nil => rfl
  | cons a t ih => simp

/-- A vector whose last entry is non-zero is already trimmed. -/
theorem remove_zeroes_eq_self_of_getD_ne_zero {l : List F}
    (h : l.getD (l.length - 1) 0 ≠ 0) : remove_zeroes l = l := by
  induction l using List.reverseRecOn with
  | nil => simp at h
  | append_singleton xs x _ =>
    have hx : x ≠ 0 := by
      have hlen : (xs ++ [x]).length - 1 = xs.length := by simp
      rw [hlen, getD_append_singleton] at h
      exact h
    simp only [remove_zeroes, List.reverse_append, List.reverse_cons,
      List.reverse_nil, List.nil_append, List.singleton_append,
      List.dropWhile_cons]
    simp [hx]

/-- Conversely, a non-empty trimmed vector has a non-zero last entry. -/
theorem getD_last_ne_zero_of_remove_zeroes_eq_self {l : List F}
    (heq : remove_zeroes l = l) (hne : l ≠ []) :
    l.getD (l.length - 1) 0 ≠ 0 := by
  induction l using List.reverseRecOn with
  | nil => exact absurd rfl hne
  | append_singleton xs x _ =>
    have hlen : (xs ++ [x]).length - 1 = xs.length := by simp
    rw [hlen, getD_append_singleton]
    intro hx
    subst hx
    have : remove_zeroes (xs ++ [(0 : F)]) =
        (xs.reverse.dropWhile (fun y => decide (y = 0))).reverse := by
      simp [remove_zeroes, List.dropWhile_cons]
    rw [this] at heq
    have hle : ((xs.reverse.dropWhile (fun y => decide (y = 0))).reverse).length ≤
        xs.length := by
      simpa using length_dropWhile_le_gen (fun y => decide ((y : F) = 0)) xs.reverse
    rw [heq] at hle
    simp at hle

/-! ## Evaluation lemmas -/

theorem evaluate_foldl (l : List F) (x r pw : F) :
    (l.foldl (fun acc c => (acc.1 + acc.2 * c, acc.2 * x)) (r, pw)).1
      = r + pw * ∑ i ∈ Finset.range l.length, l.getD i 0 * x ^ i := by
  induction l generalizing r pw with
  | nil => simp
  | cons c cs ih =>
    have hsum : ∑ i ∈ Finset.range cs.length, cs.getD i 0 * (x ^ i * x) =
        (∑ i ∈ Finset.range cs.length, cs.getD i 0 * x ^ i) * x := by
      rw [Finset.sum_mul]
      exact Finset.sum_congr rfl fun i _ => by ring
    simp only [List.foldl_cons, ih, List.length_cons, Finset.sum_range_succ',
      List.getD_cons_succ, List.getD_cons_zero, pow_succ, pow_zero, hsum]
    ring

theorem evaluate_eq_sum (l : List F) (x : F) :
    evaluate l x = ∑ i ∈ Finset.range l.length, l.getD i 0 * x ^ i := by
  simpa [evaluate] using evaluate_foldl l x 0 1

theorem evaluate_eq_sum_of_le {l : List F} {n : Nat} (h : l.length ≤ n)
    (x : F) :
    evaluate l x = ∑ i ∈ Finset.range n, l.getD i 0 * x ^ i := by
  rw [evaluate_eq_sum]
  apply Finset.sum_subset (Finset.range_subset.mpr h)
  intro i _ hni
  rw [getD_eq_zero_of_le (by simpa using hni), zero_mul]

theorem degree_eq_length_sub_one {l : List F} (h1 : 1 ≤ l.length)
    (h2 : l.length < USIZE) : degree l = l.length - 1 := by
  simp only [degree, USIZE] at h2 ⊢
  omega

/-- The internal fold helper applied to the empty vector returns the empty
vector, for every challenge. -/
theorem fold_with_beta_nil (β : F) : fold_with_beta [] β = [] := rfl

theorem commitLoop_nil_none : ∀ (fuel : Nat) (dom : List F)
    (acc : List FriCodeLayer) (ch : Channel),
    commitLoop fuel [] dom acc ch = none := by
  intro fuel
  induction fuel with
  | zero =>
    intro dom acc ch
    have hc : degree ([] : List F) > 0 := by decide
    simp [commitLoop, hc]
  | succ f ih =>
    intro dom acc ch
    have hc : degree ([] : List F) > 0 := by decide
    simp only [commitLoop, if_pos hc, fold_with_beta_nil]
    exact ih _ _ _

/-- Claim C8: `evaluate` computes the monomial sum `Σ aᵢ · xⁱ`; in particular
evaluating the polynomial with coefficients 1, 2, 3 at x = 2 yields 17. -/
theorem evaluate_is_monomial_sum :
    (∀ (P : List F) (x : F),
      evaluate P x = ∑ i ∈ Finset.range P.length, P.getD i 0 * x ^ i) ∧
    evaluate [1, 2, 3] 2 = 17 :=
  ⟨evaluate_eq_sum, by decide⟩

/-- Claim C2: the fold satisfies
`fold(P, β)(x²) = P_e(x²) + β · P_o(x²)` where `P_e`/`P_o` are the even- and
odd-indexed coefficient polynomials, and folding coefficients 1..6 with β = 2
yields the coefficients 5, 11, 17. -/
theorem fold_evaluation_identity :
    (∀ (P : List F) (β x : F),
      evaluate (fold_with_beta P β) (x ^ 2) =
        evaluate (stepBy2 P) (x ^ 2) + β * evaluate (stepBy2 (P.drop 1)) (x ^ 2)) ∧
    fold_with_beta [1, 2, 3, 4, 5, 6] 2 = [5, 11, 17] := by
  constructor
  · intro P β x
    have hlf : (fold_with_beta P β).length ≤ P.length := by
      have := length_fold_with_beta_le P β
      omega
    have hle : (stepBy2 P).length ≤ P.length := by
      rw [length_stepBy2]; omega
    have hlo : (stepBy2 (P.drop 1)).length ≤ P.length := by
      rw [length_stepBy2, List.length_drop]; omega
    rw [evaluate_eq_sum_of_le hlf, evaluate_eq_sum_of_le hle,
      evaluate_eq_sum_of_le hlo, Finset.mul_sum, ← Finset.sum_add_distrib]
    apply Finset.sum_congr rfl
    intro i _
    rw [getD_fold_with_beta, getD_stepBy2, getD_stepBy2, getD_drop_one]
    ring
  · decide

/-- Claim C1 (amended): for a trimmed non-zero polynomial the fold has degree
exactly `⌊degree(P)/2⌋` whenever the degree is even, or the degree is odd and
the leading folded coefficient `a_{d-1} + a_d · β` does not vanish. -/
theorem fold_degree_halves (P : List F) (β : F)
    (htrim : remove_zeroes P = P) (hne : P ≠ []) (hU : P.length < USIZE)
    (htop : P.length % 2 = 1 ∨
      P.getD (P.length - 2) 0 + P.getD (P.length - 1) 0 * β ≠ 0) :
    degree (fold_with_beta P β) = degree P / 2 := by
  have hn1 : 1 ≤ P.length := by
    cases P with
    | nil => exact absurd rfl hne
    | cons a t => simp
  have hlast := getD_last_ne_zero_of_remove_zeroes_eq_self htrim hne
  have htopval : (fold_with_beta P β).getD ((P.length + 1) / 2 - 1) 0 ≠ 0 := by
    rw [getD_fold_with_beta]
    by_cases hpar : P.length % 2 = 1
    · have e1 : 2 * ((P.length + 1) / 2 - 1) = P.length - 1 := by omega
      rw [e1]
      have e2 : P.length - 1 + 1 = P.length := by omega
      rw [e2, getD_eq_zero_of_le (Nat.le_refl _), zero_mul, add_zero]
      exact hlast
    · rcases htop with h | h
      · exact absurd h hpar
      · have e1 : 2 * ((P.length + 1) / 2 - 1) = P.length - 2 := by omega
        rw [e1]
        have e2 : P.length - 2 + 1 = P.length - 1 := by omega
        rw [e2]
        exact h
  have hlt := lt_length_of_getD_ne_zero htopval
  have hle := length_fold_with_beta_le P β
  have hflen : (fold_with_beta P β).length = (P.length + 1) / 2 := by omega
  have hdegf : degree (fold_with_beta P β) = (P.length + 1) / 2 - 1 := by
    rw [degree_eq_length_sub_one (by omega) (by omega), hflen]
  have hdegP : degree P = P.length - 1 := degree_eq_length_sub_one hn1 hU
  rw [hdegf, hdegP]
  omega

/-- Claim C1 witness: a concrete trimmed polynomial of even degree satisfying
the amended hypotheses, whose fold halves the degree. -/
theorem fold_degree_halves_witness :
    (remove_zeroes [(1 : F), 2, 3] = [1, 2, 3] ∧ ([(1 : F), 2, 3] ≠ []) ∧
      ([(1 : F), 2, 3] : List F).length < USIZE ∧
      (([(1 : F), 2, 3] : List F).length % 2 = 1 ∨
        ([(1 : F), 2, 3] : List F).getD (([(1 : F), 2, 3] : List F).length - 2) 0 +
          ([(1 : F), 2, 3] : List F).getD (([(1 : F), 2, 3] : List F).length - 1) 0 * 5 ≠ 0)) ∧
    degree (fold_with_beta [(1 : F), 2, 3] 5) = degree [(1 : F), 2, 3] / 2 :=
  ⟨⟨by decide, by decide, by decide, by decide⟩,
    fold_degree_halves [(1 : F), 2, 3] 5 (by decide) (by decide) (by decide)
      (by decide)⟩

/-- Claim C1 counterexample: the trimmed non-zero polynomial with coefficients
1, 1, 0, 1 has degree 3, but folding it with β = 0 yields the constant
polynomial with coefficient vector [1], of degree 0 ≠ ⌊3/2⌋. -/
theorem fold_degree_not_always_half :
    remove_zeroes [(1 : F), 1, 0, 1] = [1, 1, 0, 1] ∧
    ([(1 : F), 1, 0, 1] ≠ []) ∧
    degree [(1 : F), 1, 0, 1] = 3 ∧
    fold_with_beta [(1 : F), 1, 0, 1] 0 = [1] ∧
    degree (fold_with_beta [(1 : F), 1, 0, 1] 0) ≠ degree [(1 : F), 1, 0, 1] / 2 :=
  ⟨by decide, by decide, by decide, by decide, by decide⟩

/-- Claim C10: folding the trimmed non-zero polynomial x (coefficients 0, 1)
with challenge β = 0 produces the empty coefficient vector; `degree` on that
result computes the wrapped `0 - 1` on the unsigned length, which is still
positive, so the commit loop's `degree > 0` guard never becomes false and the
loop, once fed the empty polynomial, exhausts every fuel bound. -/
theorem fold_reaches_empty_and_degree_wraps :
    remove_zeroes [(0 : F), 1] = [0, 1] ∧
    ([(0 : F), 1] ≠ []) ∧
    fold_with_beta [(0 : F), 1] 0 = [] ∧
    degree (fold_with_beta [(0 : F), 1] 0) = USIZE - 1 ∧
    0 < degree (fold_with_beta [(0 : F), 1] 0) ∧
    (∀ fuel dom acc ch, commitLoop fuel [] dom acc ch = none) :=
  ⟨by decide, by decide, by decide, by decide, by decide, commitLoop_nil_none⟩

/-! ## Domain claims -/

theorem getD_map_range {N i : Nat} (f : Nat → F) (h : i < N) :
    (((List.range N).map f).getD i 0) = f i := by
  rw [List.getD_eq_getElem?_getD, List.getElem?_map, List.getElem?_range h]
  rfl

/-- Claim C7: the initial domain is the sequence `g * c^i` for
`c = g^((2^30 * 3) % N)`, and for N = 5 it is concretely
7, 343, 16807, 823543, 40353607. -/
theorem initial_domain_formula :
    (∀ N : Nat, 0 < N →
      generate_enlarged_evaluation_domain N =
        (List.range N).map
          (fun i => fieldGen * (fieldGen ^ ((2 ^ 30 * 3) % N)) ^ i)) ∧
    generate_enlarged_evaluation_domain 5 =
      [7, 343, 16807, 823543, 40353607] := by
  constructor
  · intro N _
    simp only [generate_enlarged_evaluation_domain, List.map_map]
    rfl
  · decide

/-- Claim C7 witness: the formula applied at the positive size N = 3. -/
theorem initial_domain_formula_witness :
    0 < 3 ∧
    generate_enlarged_evaluation_domain 3 =
      (List.range 3).map
        (fun i => fieldGen * (fieldGen ^ ((2 ^ 30 * 3) % 3)) ^ i) :=
  ⟨by decide, initial_domain_formula.1 3 (by decide)⟩

/-- Claim C3 (amended): the two halves of the initial domain square to the
same points whenever the offset exponent `(2^30 * 3) % N` is zero, i.e. when
N divides 2^30 * 3 (then the coset offset is 1 and the domain is constant);
for other even N the symmetry fails, e.g. N = 10. -/
theorem initial_domain_symmetry (N i : Nat) (_hN : 0 < N) (heven : N % 2 = 0)
    (hdvd : (2 ^ 30 * 3) % N = 0) (hi : i < N / 2) :
    ((generate_enlarged_evaluation_domain N).getD i 0) ^ 2 =
      ((generate_enlarged_evaluation_domain N).getD (i + N / 2) 0) ^ 2 := by
  have hmap : generate_enlarged_evaluation_domain N =
      (List.range N).map
        (fun j => fieldGen * (fieldGen ^ ((2 ^ 30 * 3) % N)) ^ j) := by
    simp only [generate_enlarged_evaluation_domain, List.map_map]
    rfl
  have hval : ∀ j, j < N →
      (generate_enlarged_evaluation_domain N).getD j 0 = fieldGen := by
    intro j hj
    rw [hmap, getD_map_range _ hj, hdvd, pow_zero, one_pow, mul_one]
  rw [hval i (by omega), hval (i + N / 2) (by omega)]

/-- Claim C3 witness: N = 6 divides 2^30 * 3, and the halves square equal. -/
theorem initial_domain_symmetry_witness :
    (0 < 6 ∧ 6 % 2 = 0 ∧ (2 ^ 30 * 3) % 6 = 0 ∧ 1 < 6 / 2) ∧
    ((generate_enlarged_evaluation_domain 6).getD 1 0) ^ 2 =
      ((generate_enlarged_evaluation_domain 6).getD (1 + 6 / 2) 0) ^ 2 :=
  ⟨⟨by decide, by decide, by decide, by decide⟩,
    initial_domain_symmetry 6 1 (by decide) (by decide) (by decide) (by decide)⟩

/-- Claim C3 counterexample: for the even size N = 10 the claimed symmetry
`D[i]^2 = D[i + N/2]^2` already fails at i = 0. -/
theorem initial_domain_symmetry_fails :
    10 % 2 = 0 ∧ 0 < 10 ∧
    ((generate_enlarged_evaluation_domain 10).getD 0 0) ^ 2 ≠
      ((generate_enlarged_evaluation_domain 10).getD (0 + 10 / 2) 0) ^ 2 :=
  ⟨by decide, by decide, by decide⟩

/-! ## Channel claim -/

/-- Claim C9: recording a root under a challenge key makes the lookup return
exactly that root, and a second record under the same key silently replaces
the first. -/
theorem channel_record_lookup_roundtrip :
    ∀ (ch : Channel) (k : F) (r : Option (List Nat)),
      (Channel.add_committed_data ch k r).get_merkle_root k = r ∧
      ∀ r₀ : Option (List Nat),
        ((Channel.add_committed_data ch k r₀).add_committed_data k
          r).get_merkle_root k = r := by
  intro ch k r
  constructor
  · simp [Channel.add_committed_data, Channel.get_merkle_root]
  · intro r₀
    simp [Channel.add_committed_data, Channel.get_merkle_root]

/-! ## Commit-ladder lemmas -/

theorem polyChain_shift (bs : Nat → Nat) (pos : Nat) (p : List F) :
    ∀ k, polyChain bs (pos + 1) (fold_with_beta p (betaOf bs pos)) k =
      polyChain bs pos p (k + 1)
  | 0 => rfl
  | k + 1 => by
    simp only [polyChain, polyChain_shift bs pos p k]
    have harg : pos + 1 + k = pos + (k + 1) := by omega
    rw [harg]

/-- Iterated ceiling-halving from `n ≥ 2` reaches 1 in exactly
`Nat.clog 2 n` steps, staying at least 2 before that. -/
theorem halving_chain : ∀ n : Nat, 2 ≤ n → ∀ u : Nat → Nat, u 0 = n →
    (∀ k, k < Nat.clog 2 n → u (k + 1) = (u k + 1) / 2) →
    (∀ k, k < Nat.clog 2 n → 2 ≤ u k) ∧ u (Nat.clog 2 n) = 1 := by
  intro n
  induction n using Nat.strong_induction_on with
  | _ n ih =>
    intro hn u hu0 hrec
    have hT : Nat.clog 2 n = Nat.clog 2 ((n + 1) / 2) + 1 := by
      have hstep := Nat.clog_of_two_le (b := 2) (n := n) (by norm_num) hn
      have h21 : n + 2 - 1 = n + 1 := by omega
      rw [h21] at hstep
      exact hstep
    have hpos : 0 < Nat.clog 2 n := Nat.clog_pos (by norm_num) (by omega)
    have hu1 : u 1 = (n + 1) / 2 := by rw [hrec 0 hpos, hu0]
    by_cases h2 : 2 ≤ (n + 1) / 2
    · have hlt : (n + 1) / 2 < n := by omega
      have ihres := ih ((n + 1) / 2) hlt h2 (fun k => u (k + 1)) hu1
        (fun k hk => hrec (k + 1) (by rw [hT]; omega))
      constructor
      · intro k hk
        cases k with
        | zero => rw [hu0]; exact hn
        | succ j =>
          apply ihres.1 j
          rw [hT] at hk
          omega
      · rw [hT]
        exact ihres.2
    · have hn2 : n = 2 := by omega
      subst hn2
      have hT2 : Nat.clog 2 2 = 1 := by
        rw [hT]
        norm_num [Nat.clog_one_right]
      constructor
      · intro k hk
        have hk0 : k = 0 := by rw [hT2] at hk; omega
        subst hk0
        rw [hu0]
      · rw [hT2, hu1]

theorem commitLoop_spec : ∀ (T fuel : Nat) (p dom : List F)
    (acc : List FriCodeLayer) (ch : Channel),
    p.length < USIZE →
    (∀ k, k < T → 2 ≤ (polyChain ch.betas ch.bpos p k).length) →
    (polyChain ch.betas ch.bpos p T).length = 1 →
    T ≤ fuel →
    ∃ (L : List FriCodeLayer) (ch₂ : Channel),
      commitLoop fuel p dom acc ch =
        some (polyChain ch.betas ch.bpos p T, L, ch₂) ∧
      L.length = acc.length + T := by
  intro T
  induction T with
  | zero =>
    intro fuel p dom acc ch _hU _h2 h1 _hf
    simp only [polyChain] at h1 ⊢
    have hdeg : ¬ degree p > 0 := by
      simp only [degree, USIZE] at *
      omega
    cases fuel with
    | zero => exact ⟨acc, ch, by simp [commitLoop, hdeg], by simp⟩
    | succ f => exact ⟨acc, ch, by simp [commitLoop, hdeg], by simp⟩
  | succ T ih =>
    intro fuel p dom acc ch hU h2 h1 hf
    have hlen2 : 2 ≤ p.length := by
      have := h2 0 (Nat.succ_pos T)
      simpa [polyChain] using this
    have hdeg : degree p > 0 := by
      simp only [degree, USIZE] at *
      omega
    cases fuel with
    | zero => omega
    | succ f =>
      have hstep : commitLoop (f + 1) p dom acc ch =
          commitLoop f (fold_with_beta p (betaOf ch.betas ch.bpos))
            (build_next_domain dom)
            (acc ++ [FriCodeLayer.new
              (fold_with_beta p (betaOf ch.betas ch.bpos))
              (build_next_domain dom)])
            (Channel.add_committed_data { ch with bpos := ch.bpos + 1 }
              (betaOf ch.betas ch.bpos)
              (FriCodeLayer.new (fold_with_beta p (betaOf ch.betas ch.bpos))
                (build_next_domain dom)).get_merkle_root) := by
        simp only [commitLoop, if_pos hdeg]
        rfl
      have hU2 : (fold_with_beta p (betaOf ch.betas ch.bpos)).length < USIZE := by
        have := length_fold_with_beta_le p (betaOf ch.betas ch.bpos)
        omega
      have hshift := polyChain_shift ch.betas ch.bpos p
      obtain ⟨L, ch₂, hrun, hlenL⟩ := ih f
        (fold_with_beta p (betaOf ch.betas ch.bpos))
        (build_next_domain dom)
        (acc ++ [FriCodeLayer.new
          (fold_with_beta p (betaOf ch.betas ch.bpos))
          (build_next_domain dom)])
        (Channel.add_committed_data { ch with bpos := ch.bpos + 1 }
          (betaOf ch.betas ch.bpos)
          (FriCodeLayer.new (fold_with_beta p (betaOf ch.betas ch.bpos))
            (build_next_domain dom)).get_merkle_root)
        hU2
        (fun k hk => by
          show 2 ≤ (polyChain ch.betas (ch.bpos + 1)
            (fold_with_beta p (betaOf ch.betas ch.bpos)) k).length
          rw [hshift k]
          exact h2 (k + 1) (Nat.succ_lt_succ hk))
        (by
          show (polyChain ch.betas (ch.bpos + 1)
            (fold_with_beta p (betaOf ch.betas ch.bpos)) T).length = 1
          rw [hshift T]
          exact h1)
        (by omega)
      refine ⟨L, ch₂, ?_, ?_⟩
      · rw [hstep, hrun]
        show some (polyChain ch.betas (ch.bpos + 1)
            (fold_with_beta p (betaOf ch.betas ch.bpos)) T, L, ch₂) = _
        rw [hshift T]
      · rw [hlenL]
        simp only [List.length_append, List.length_cons, List.length_nil]
        omega

/-- Claim C4 (amended): provided every challenge drawn during the ladder folds
the polynomial to exactly the ceiling-halved coefficient length (no trailing
cancellation), the commit phase terminates after `⌈log₂(d+1)⌉` folds, returns
`⌈log₂(d+1)⌉ + 1` layers, and ends on a degree-0 polynomial. -/
theorem commit_phase_ladder_shape (p : List F) (N : Nat) (ch : Channel)
    (fuel : Nat) (hlen2 : 2 ≤ p.length) (hU : p.length < USIZE)
    (_hdom : 2 ^ Nat.clog 2 p.length ≤ N)
    (hhalf : ∀ k, k < Nat.clog 2 p.length →
      (polyChain ch.betas ch.bpos p (k + 1)).length =
        ((polyChain ch.betas ch.bpos p k).length + 1) / 2)
    (hfuel : Nat.clog 2 p.length ≤ fuel) :
    ∃ lastp layers ch₂,
      fri_commit_phase p N ch fuel = some (lastp, layers, ch₂) ∧
      layers.length = Nat.clog 2 p.length + 1 ∧
      degree lastp = 0 := by
  have hchain := halving_chain p.length hlen2
    (fun k => (polyChain ch.betas ch.bpos p k).length) rfl hhalf
  obtain ⟨L, ch₂, hrun, hlenL⟩ := commitLoop_spec (Nat.clog 2 p.length) fuel p
    (generate_enlarged_evaluation_domain N)
    [FriCodeLayer.new p (generate_enlarged_evaluation_domain N)]
    (Channel.add_committed_data ch 0
      (FriCodeLayer.new p (generate_enlarged_evaluation_domain N)).get_merkle_root)
    hU hchain.1 hchain.2 hfuel
  have h1 : (polyChain ch.betas ch.bpos p (Nat.clog 2 p.length)).length = 1 :=
    hchain.2
  refine ⟨polyChain ch.betas ch.bpos p (Nat.clog 2 p.length), L, ch₂, ?_, ?_, ?_⟩
  · exact hrun
  · rw [hlenL]
    simp only [List.length_cons, List.length_nil]
    omega
  · have hd := degree_eq_length_sub_one (l := polyChain ch.betas ch.bpos p
      (Nat.clog 2 p.length)) (by omega) (by rw [h1]; decide)
    rw [hd, h1]

/-- A channel whose challenge stream is constantly 1 and whose committed map
is empty, used to witness the commit ladder. -/
def onesChannel : Channel := ⟨fun _ => none, fun _ => 1, fun _ => 0, 0, 0⟩

/-- A channel whose challenge stream is constantly 0 and whose committed map
is empty, used in the ladder counterexample. -/
def zeroChannel : Channel := ⟨fun _ => none, fun _ => 0, fun _ => 0, 0, 0⟩

theorem clog_two_seven : Nat.clog 2 7 = 3 := by
  rw [Nat.clog_of_two_le (by norm_num) (by norm_num)]
  rw [show (7 + 2 - 1) / 2 = 4 from by norm_num]
  rw [Nat.clog_of_two_le (by norm_num) (by norm_num)]
  rw [show (4 + 2 - 1) / 2 = 2 from by norm_num]
  rw [Nat.clog_of_two_le (by norm_num) (by norm_num)]
  rw [show (2 + 2 - 1) / 2 = 1 from by norm_num]
  rw [Nat.clog_one_right]

theorem clog_two_four : Nat.clog 2 4 = 2 := by
  rw [Nat.clog_of_two_le (by norm_num) (by norm_num)]
  rw [show (4 + 2 - 1) / 2 = 2 from by norm_num]
  rw [Nat.clog_of_two_le (by norm_num) (by norm_num)]
  rw [show (2 + 2 - 1) / 2 = 1 from by norm_num]
  rw [Nat.clog_one_right]

/-- Claim C4 witness: Scenario 7 — the degree-6 polynomial [1,2,3,3,3,3,3]
with domain size 48 and an all-ones challenge stream yields 4 layers and a
degree-0 final polynomial. -/
theorem commit_phase_ladder_shape_witness :
    (2 ≤ ([1, 2, 3, 3, 3, 3, 3] : List F).length ∧
      ([1, 2, 3, 3, 3, 3, 3] : List F).length < USIZE ∧
      2 ^ Nat.clog 2 ([1, 2, 3, 3, 3, 3, 3] : List F).length ≤ 48 ∧
      (∀ k, k < Nat.clog 2 ([1, 2, 3, 3, 3, 3, 3] : List F).length →
        (polyChain onesChannel.betas onesChannel.bpos
            [1, 2, 3, 3, 3, 3, 3] (k + 1)).length =
          ((polyChain onesChannel.betas onesChannel.bpos
            [1, 2, 3, 3, 3, 3, 3] k).length + 1) / 2) ∧
      Nat.clog 2 ([1, 2, 3, 3, 3, 3, 3] : List F).length ≤ 3) ∧
    ∃ lastp layers ch₂,
      fri_commit_phase [1, 2, 3, 3, 3, 3, 3] 48 onesChannel 3 =
        some (lastp, layers, ch₂) ∧
      layers.length = Nat.clog 2 ([1, 2, 3, 3, 3, 3, 3] : List F).length + 1 ∧
      degree lastp = 0 :=
  have h7 : ([1, 2, 3, 3, 3, 3, 3] : List F).length = 7 := rfl
  ⟨⟨by decide, by decide, by rw [h7, clog_two_seven]; decide,
      by rw [h7, clog_two_seven]; decide, by rw [h7, clog_two_seven]⟩,
    commit_phase_ladder_shape [1, 2, 3, 3, 3, 3, 3] 48 onesChannel 3
      (by decide) (by decide) (by rw [h7, clog_two_seven]; decide)
      (by rw [h7, clog_two_seven]; decide) (by rw [h7, clog_two_seven])⟩

/-- Claim C4 counterexample: the degree-3 polynomial [1,1,0,1] with domain
size 4 satisfies the claim's premises (degree ≥ 1, N ≥ 2^folds), yet with a
zero challenge stream the ladder stops after one fold: it returns 2 layers,
not `⌈log₂(3+1)⌉ + 1 = 3`. -/
theorem commit_phase_ladder_shape_fails :
    (2 ≤ ([1, 1, 0, 1] : List F).length ∧
      2 ^ Nat.clog 2 ([1, 1, 0, 1] : List F).length ≤ 4) ∧
    (fri_commit_phase [1, 1, 0, 1] 4 zeroChannel 10).map
        (fun r => (r.2.1.length, degree r.1)) = some (2, 0) ∧
    2 ≠ Nat.clog 2 ([1, 1, 0, 1] : List F).length + 1 :=
  have h4 : ([1, 1, 0, 1] : List F).length = 4 := rfl
  ⟨⟨by decide, by rw [h4, clog_two_four]; decide⟩,
    by decide, by rw [h4, clog_two_four]; decide⟩

/-! ## Decommitment-phase lemmas -/

theorem getD_map_of_lt {α β : Type _} (f : α → β) (l : List α) {i : Nat}
    (h : i < l.length) (d : α) (d₂ : β) :
    (l.map f).getD i d₂ = f (l.getD i d) := by
  rw [List.getD_eq_getElem?_getD, List.getD_eq_getElem?_getD,
    List.getElem?_map, List.getElem?_eq_getElem h]
  rfl

theorem getD_range {n i : Nat} (h : i < n) : (List.range n).getD i 0 = i := by
  rw [List.getD_eq_getElem?_getD, List.getElem?_range h]
  rfl

/-- Claim C5: with an empty layer list the decommitment phase returns empty
outputs; otherwise it returns exactly `q` bundles and `q` reduced indices,
and for each query the bundle carries four parallel per-layer sequences:
evaluation and authentication path at `idx = i % M` and at
`idx_sym = (idx + M/2) % M` for each layer of domain size `M`, where `i` is
the channel draw reduced modulo the top domain size `N`. -/
theorem decommitment_bundles_shape (q : Int) (N : Nat)
    (layers : List FriCodeLayer) (ch : Channel) (_hN : 0 < N) :
    (layers = [] →
      fri_decommitment_phase q N layers ch = (([], []), ch)) ∧
    (layers ≠ [] →
      (fri_decommitment_phase q N layers ch).1.1.length = q.toNat ∧
      (fri_decommitment_phase q N layers ch).1.2.length = q.toNat ∧
      (∀ j, j < q.toNat →
        (fri_decommitment_phase q N layers ch).1.2.getD j 0 =
          (ch.indices (ch.ipos + j) % USIZE) % N ∧
        ((fri_decommitment_phase q N layers ch).1.1.getD j
            default).layers_evaluations.length = layers.length ∧
        ((fri_decommitment_phase q N layers ch).1.1.getD j
            default).layers_auth_paths.length = layers.length ∧
        ((fri_decommitment_phase q N layers ch).1.1.getD j
            default).layers_evaluations_sym.length = layers.length ∧
        ((fri_decommitment_phase q N layers ch).1.1.getD j
            default).layers_auth_paths_sym.length = layers.length ∧
        (∀ l, l < layers.length →
          ((fri_decommitment_phase q N layers ch).1.1.getD j
              default).layers_evaluations.getD l 0 =
            (layers.getD l default).evaluation.getD
              (((ch.indices (ch.ipos + j) % USIZE) % N) %
                (layers.getD l default).domain.length) 0 ∧
          ((fri_decommitment_phase q N layers ch).1.1.getD j
              default).layers_auth_paths.getD l [] =
            proofHashes (layers.getD l default).merkle_tree
              (((ch.indices (ch.ipos + j) % USIZE) % N) %
                (layers.getD l default).domain.length) ∧
          ((fri_decommitment_phase q N layers ch).1.1.getD j
              default).layers_evaluations_sym.getD l 0 =
            (layers.getD l default).evaluation.getD
              (((((ch.indices (ch.ipos + j) % USIZE) % N) %
                  (layers.getD l default).domain.length) +
                (layers.getD l default).domain.length / 2) %
                (layers.getD l default).domain.length) 0 ∧
          ((fri_decommitment_phase q N layers ch).1.1.getD j
              default).layers_auth_paths_sym.getD l [] =
            proofHashes (layers.getD l default).merkle_tree
              (((((ch.indices (ch.ipos + j) % USIZE) % N) %
                  (layers.getD l default).domain.length) +
                (layers.getD l default).domain.length / 2) %
                (layers.getD l default).domain.length)))) := by
  cases layers with
  | nil =>
    exact ⟨fun _ => rfl, fun h => absurd rfl h⟩
  | cons L0 rest =>
    refine ⟨fun h => absurd h (List.cons_ne_nil L0 rest), fun _ => ?_⟩
    have heq : fri_decommitment_phase q N (L0 :: rest) ch =
        ((((List.range q.toNat).map
            (fun j => (ch.indices (ch.ipos + j) % USIZE) % N)).map
              (mkBundle (L0 :: rest)),
          (List.range q.toNat).map
            (fun j => (ch.indices (ch.ipos + j) % USIZE) % N)),
          { ch with ipos := ch.ipos + q.toNat }) := rfl
    rw [heq]
    refine ⟨by simp, by simp, ?_⟩
    intro j hj
    have hjlen : j < ((List.range q.toNat).map
        (fun j => (ch.indices (ch.ipos + j) % USIZE) % N)).length := by
      simpa using hj
    have hjr : j < (List.range q.toNat).length := by simpa using hj
    have hidx : ((List.range q.toNat).map
        (fun j => (ch.indices (ch.ipos + j) % USIZE) % N)).getD j 0 =
          (ch.indices (ch.ipos + j) % USIZE) % N := by
      rw [getD_map_of_lt _ _ hjr 0, getD_range hj]
    have hbundle : (((List.range q.toNat).map
        (fun j => (ch.indices (ch.ipos + j) % USIZE) % N)).map
          (mkBundle (L0 :: rest))).getD j default =
        mkBundle (L0 :: rest) ((ch.indices (ch.ipos + j) % USIZE) % N) := by
      rw [getD_map_of_lt _ _ hjlen 0, hidx]
    rw [hbundle, hidx]
    refine ⟨rfl, by simp [mkBundle], by simp [mkBundle], by simp [mkBundle],
      by simp [mkBundle], ?_⟩
    intro l hl
    simp only [mkBundle]
    rw [getD_map_of_lt _ _ hl default, getD_map_of_lt _ _ hl default,
      getD_map_of_lt _ _ hl default, getD_map_of_lt _ _ hl default,
      Nat.mod_add_mod]
    exact ⟨rfl, rfl, rfl, rfl⟩

/-- A concrete committed layer, used by witnesses: the polynomial 1 + 2x over
the two-point domain 7, 343. -/
def sampleLayer : FriCodeLayer := FriCodeLayer.new [1, 2] [7, 343]

/-- Claim C5 witness: one query over one layer with positive domain size. -/
theorem decommitment_bundles_shape_witness :
    (0 < 2 ∧ [sampleLayer] ≠ []) ∧
    (fri_decommitment_phase 1 2 [sampleLayer] onesChannel).1.1.length =
      (1 : Int).toNat ∧
    (fri_decommitment_phase 1 2 [sampleLayer] onesChannel).1.2.length =
      (1 : Int).toNat :=
  ⟨⟨by decide, by simp⟩,
    ((decommitment_bundles_shape 1 2 [sampleLayer] onesChannel
      (by decide)).2 (by simp)).1,
    (((decommitment_bundles_shape 1 2 [sampleLayer] onesChannel
      (by decide)).2 (by simp)).2).1⟩

/-! ## Merkle authentication-path claims -/

theorem getD_eq_get_of_lt {α : Type _} (l : List α) {i : Nat}
    (h : i < l.length) (d : α) : l.getD i d = l.get ⟨i, h⟩ := by
  rw [List.getD_eq_getElem?_getD, List.getElem?_eq_getElem h]
  rfl

/-- Claim C6 (amended): for a tree over at least two values with both `i` and
its partner `i ^^^ 1` in range, the first authentication-path entry is the
leaf hash of the value at the sibling index `i ^^^ 1`; it equals the hash of
the revealed value at `i` exactly when the two committed values hash alike —
in particular whenever they are equal, as in the repository's degenerate
domains where all the evaluations of a layer coincide. -/
theorem merkle_first_proof_hash (values : List F) (i : Nat)
    (hi : i < values.length) (hsib : i ^^^ 1 < values.length) :
    (proofHashes (build_merkle_tree values) i).head? =
      some (leafHash (values.getD (i ^^^ 1) 0)) ∧
    (values.getD (i ^^^ 1) 0 = values.getD i 0 →
      (proofHashes (build_merkle_tree values) i).head? =
        some (leafHash (values.getD i 0))) := by
  have hlen2 : 2 ≤ values.length := by
    rcases Nat.lt_or_ge i 1 with h0 | h1
    · have : i = 0 := by omega
      subst this
      simpa using hsib
    · omega
  have hfirst : (proofHashes (build_merkle_tree values) i).head? =
      some (leafHash (values.getD (i ^^^ 1) 0)) := by
    obtain ⟨m, hm⟩ : ∃ m, values.length = m + 2 :=
      ⟨values.length - 2, by omega⟩
    have hlm : (build_merkle_tree values).length = m + 2 := by
      rw [build_merkle_tree, List.length_map, hm]
    rw [proofHashes, hlm]
    simp only [proofHashesAux]
    rw [if_neg (by rw [hlm]; omega)]
    have hsib2 : i ^^^ 1 < (build_merkle_tree values).length := by
      rw [hlm]; omega
    rw [siblingAt, dif_pos hsib2]
    have hget : (build_merkle_tree values).get ⟨i ^^^ 1, hsib2⟩ =
        leafHash (values.getD (i ^^^ 1) 0) := by
      rw [getD_eq_get_of_lt values hsib 0]
      simp [build_merkle_tree]
    rw [hget]
    rfl
  exact ⟨hfirst, fun heq => by rw [hfirst, heq]⟩

/-- Claim C6 witness: the two-leaf tree over the values 1, 2 at index 0. -/
theorem merkle_first_proof_hash_witness :
    (0 < ([1, 2] : List F).length ∧ 0 ^^^ 1 < ([1, 2] : List F).length) ∧
    (proofHashes (build_merkle_tree [1, 2]) 0).head? =
      some (leafHash (([1, 2] : List F).getD (0 ^^^ 1) 0)) :=
  ⟨⟨by decide, by decide⟩,
    (merkle_first_proof_hash [1, 2] 0 (by decide) (by decide)).1⟩

/-- Claim C6 counterexample: over the distinct values 1, 2 the first proof
element for leaf 0 is the hash of the sibling value 2, which differs from the
hash of the revealed value 1 — so the first entry does not in general equal
the hash of the value at the queried index. -/
theorem merkle_first_proof_hash_not_leaf :
    (proofHashes (build_merkle_tree [1, 2]) 0).head? = some (leafHash 2) ∧
    leafHash (2 : F) ≠ leafHash 1 :=
  ⟨rfl, by decide⟩
